import Mathlib

/-!
Verification of the markdown post-processing, writer-agent control flow and
report-server request handling of the gpt-researcher repository.

The embedding follows the three source files:
  gpt_researcher/actions/markdown_processing.py
  multi_agents/agents/writer.py
  backend/server/server.py

External collaborators of the code (the `markdown` renderer, `call_model`,
`run_agent`, the filesystem and the export writers) are modelled as explicit
inputs of the embedded functions: each embedded function receives the data the
external call would have produced.
-/

namespace GptResearcher

/-! ## Header trees (markdown_processing.extract_headers)

The source renders markdown to HTML, scans the rendered lines for header tags
and builds a forest of header dictionaries with a stack.  A header dictionary
holds a level, a text and a list of child headers; in Python the children list
of an open header is mutated in place while the header sits on the stack.  The
functional rendering below keeps every open header as a stack frame carrying
the children collected so far and closes the frame into an immutable tree node
when the frame is popped. -/

/-- A finished header node: level, text and children, as built by
`extract_headers`. -/
inductive HTree where
  | node (level : Nat) (text : String) (children : List HTree)
deriving Repr

def HTree.levelOf : HTree → Nat
  | .node l _ _ => l

def HTree.textOf : HTree → String
  | .node _ t _ => t

/-- An open header on the stack: its level, text, and the children attached
so far (in document order). -/
structure Frame where
  level : Nat
  text : String
  children : List HTree
deriving Repr

/-- Close an open header into a finished tree node. -/
def closeFrame (f : Frame) : HTree := .node f.level f.text f.children

/-- Attach a finished subtree as the last child of an open header.  This is
the functional rendering of the in-place `children.append` of the source. -/
def addChild (f : Frame) (t : HTree) : Frame :=
  { f with children := f.children ++ [t] }

/-- State of the scan: `headers` are the finished root nodes in document
order (the `headers` list of the source) and `stack` the open headers, top
first (the `stack` list of the source, reversed). -/
structure HState where
  headers : List HTree
  stack : List Frame
deriving Repr

def initState : HState := ⟨[], []⟩

/-- Attach the pending subtree carried through a pop loop, when present, as
the last child of a frame. -/
def attachPending (pending : Option HTree) (f : Frame) : Frame :=
  match pending with
  | some t => addChild f t
  | none => f

/-- The pop loop `while stack and stack[-1].level >= level: stack.pop()` of
the source.  A popped frame is closed into a tree; the tree is attached to
the next frame down (it was appended to the children of that header when it
was created in the source) or, when the stack empties, appended to the
finished root nodes.  `pending` carries the tree closed by the previous
iteration. -/
def popGE (lvl : Nat) (pending : Option HTree) :
    List Frame → List HTree → List Frame × List HTree
  | [], headers => ([], headers ++ pending.toList)
  | f :: rest, headers =>
    if lvl ≤ f.level then
      popGE lvl (some (closeFrame (attachPending pending f))) rest headers
    else (attachPending pending f :: rest, headers)

/-- Close every frame still open when the scan ends; the bottom frame closes
last and becomes the last finished root. -/
def closeAll (pending : Option HTree) :
    List Frame → List HTree → List HTree
  | [], headers => headers ++ pending.toList
  | f :: rest, headers =>
    closeAll (some (closeFrame (attachPending pending f))) rest headers

/-- Process one header line `(level, text)`: run the pop loop, then push the
new header as a fresh open frame (the source attaches it to the new stack top
or to the root list at creation; the functional rendering defers the
attachment to the close of the frame). -/
def step (s : HState) (h : Nat × String) : HState :=
  let p := popGE h.1 none s.stack s.headers
  ⟨p.2, ⟨h.1, h.2, []⟩ :: p.1⟩

/-- The stack algorithm of `extract_headers` over the sequence of header
lines found in the rendered document. -/
def buildForest (hs : List (Nat × String)) : List HTree :=
  let s := hs.foldl step initState
  closeAll none s.stack s.headers

/-! ### Depth-first pre-order traversal of a header forest -/

/-- Depth-first pre-order traversal of a header tree, listing each header as
its `(level, text)` pair. -/
def preorder : HTree → List (Nat × String)
  | .node l t cs => (l, t) :: (cs.attach.map (fun x => preorder x.1)).flatten
decreasing_by
  have := List.sizeOf_lt_of_mem x.2
  simp only [HTree.node.sizeOf_spec]
  omega

theorem preorder_node (l : Nat) (t : String) (cs : List HTree) :
    preorder (.node l t cs) = (l, t) :: (cs.map preorder).flatten := by
  rw [preorder]
  congr 1
  exact congrArg List.flatten (List.attach_map_val cs preorder)

/-- Pre-order traversal of a forest. -/
def preorderF (forest : List HTree) : List (Nat × String) :=
  (forest.map preorder).flatten

theorem preorderF_nil : preorderF [] = [] := rfl

theorem preorderF_cons (t : HTree) (f : List HTree) :
    preorderF (t :: f) = preorder t ++ preorderF f := by
  simp [preorderF]

theorem preorderF_append (f g : List HTree) :
    preorderF (f ++ g) = preorderF f ++ preorderF g := by
  simp [preorderF]

/-! ### Well-formedness of a header tree: children have strictly greater
levels, recursively -/

/-- A header tree is well formed when every child of every node has a level
strictly greater than the level of the node. -/
def treeWF : HTree → Bool
  | .node l _ cs => cs.attach.all (fun x => decide (l < x.1.levelOf) && treeWF x.1)
decreasing_by
  have := List.sizeOf_lt_of_mem x.2
  simp only [HTree.node.sizeOf_spec]
  omega

theorem treeWF_node (l : Nat) (t : String) (cs : List HTree) :
    treeWF (.node l t cs) = cs.all (fun c => decide (l < c.levelOf) && treeWF c) := by
  rw [treeWF, Bool.eq_iff_iff]
  simp [List.all_eq_true]

theorem treeWF_node_iff (l : Nat) (t : String) (cs : List HTree) :
    treeWF (.node l t cs) = true ↔ ∀ c ∈ cs, l < c.levelOf ∧ treeWF c = true := by
  rw [treeWF_node]
  simp [List.all_eq_true]

/-! ### The content invariant: the scan state always holds exactly the
headers processed so far, in order -/

/-- Contribution of one open frame to the document: its own header followed
by the headers inside its already-collected children. -/
def frameContent (f : Frame) : List (Nat × String) :=
  (f.level, f.text) :: preorderF f.children

/-- Contribution of the whole stack: bottom frame first (its header was seen
first), each frame holding the later frames nested inside it. -/
def stackContent (st : List Frame) : List (Nat × String) :=
  (st.reverse.map frameContent).flatten

/-- Contribution of the pending subtree carried through the pop loop. -/
def pendContent : Option HTree → List (Nat × String)
  | none => []
  | some t => preorder t

theorem stackContent_nil : stackContent [] = [] := rfl

theorem stackContent_cons (f : Frame) (st : List Frame) :
    stackContent (f :: st) = stackContent st ++ frameContent f := by
  simp [stackContent]

theorem frameContent_addChild (f : Frame) (t : HTree) :
    frameContent (addChild f t) = frameContent f ++ preorder t := by
  simp [frameContent, addChild, preorderF_append, preorderF_cons, preorderF_nil]

theorem preorder_closeFrame (f : Frame) :
    preorder (closeFrame f) = frameContent f := by
  simp [closeFrame, frameContent, preorder_node, preorderF]

theorem preorderF_pendList (hd : List HTree) (p : Option HTree) :
    preorderF (hd ++ p.toList) = preorderF hd ++ pendContent p := by
  cases p <;> simp [preorderF_append, pendContent, preorderF_cons, preorderF_nil]

theorem frameContent_attachPending (p : Option HTree) (f : Frame) :
    frameContent (attachPending p f) = frameContent f ++ pendContent p := by
  cases p <;> simp [attachPending, pendContent, frameContent_addChild]

theorem attachPending_level (p : Option HTree) (f : Frame) :
    (attachPending p f).level = f.level := by
  cases p <;> rfl

theorem attachPending_text (p : Option HTree) (f : Frame) :
    (attachPending p f).text = f.text := by
  cases p <;> rfl

theorem closeFrame_eq_node (f : Frame) :
    closeFrame f = HTree.node f.level f.text f.children := rfl

/-- The pop loop moves content around but neither loses nor reorders it. -/
theorem popGE_content (lvl : Nat) :
    ∀ (st : List Frame) (p : Option HTree) (hd : List HTree),
      preorderF (popGE lvl p st hd).2 ++ stackContent (popGE lvl p st hd).1 =
        preorderF hd ++ stackContent st ++ pendContent p := by
  intro st
  induction st with
  | nil =>
    intro p hd
    simp [popGE, stackContent_nil, preorderF_pendList]
  | cons f rest ih =>
    intro p hd
    by_cases h : lvl ≤ f.level
    · have hstep : popGE lvl p (f :: rest) hd =
          popGE lvl (some (closeFrame (attachPending p f))) rest hd := by
        simp only [popGE, h, if_true]
      rw [hstep, ih]
      simp [pendContent, preorder_closeFrame, frameContent_attachPending,
        stackContent_cons]
    · have hstep : popGE lvl p (f :: rest) hd =
          (attachPending p f :: rest, hd) := by
        simp only [popGE, h, if_false]
      rw [hstep]
      simp [stackContent_cons, frameContent_attachPending]

/-- Closing the remaining frames preserves the content as well. -/
theorem closeAll_content :
    ∀ (st : List Frame) (p : Option HTree) (hd : List HTree),
      preorderF (closeAll p st hd) =
        preorderF hd ++ stackContent st ++ pendContent p := by
  intro st
  induction st with
  | nil =>
    intro p hd
    simp [closeAll, stackContent_nil, preorderF_pendList]
  | cons f rest ih =>
    intro p hd
    have hstep : closeAll p (f :: rest) hd =
        closeAll (some (closeFrame (attachPending p f))) rest hd := by
      simp only [closeAll]
    rw [hstep, ih]
    simp [pendContent, preorder_closeFrame, frameContent_attachPending,
      stackContent_cons]

/-- Total content of a scan state. -/
def stateContent (s : HState) : List (Nat × String) :=
  preorderF s.headers ++ stackContent s.stack

/-- Processing one header appends exactly that header to the content. -/
theorem step_content (s : HState) (h : Nat × String) :
    stateContent (step s h) = stateContent s ++ [h] := by
  unfold step stateContent
  simp only [stackContent_cons]
  rw [← List.append_assoc, popGE_content]
  simp [pendContent, frameContent, preorderF_nil]

theorem foldl_step_content (hs : List (Nat × String)) :
    ∀ s : HState, stateContent (hs.foldl step s) = stateContent s ++ hs := by
  induction hs with
  | nil => intro s; simp
  | cons h rest ih =>
    intro s
    simp only [List.foldl_cons]
    rw [ih, step_content]
    simp

/-- Pre-order traversal of the built forest reproduces the processed header
sequence exactly. -/
theorem preorderF_buildForest (hs : List (Nat × String)) :
    preorderF (buildForest hs) = hs := by
  unfold buildForest
  rw [closeAll_content]
  have h1 := foldl_step_content hs initState
  unfold stateContent at h1
  have h0 : preorderF initState.headers ++ stackContent initState.stack = [] := rfl
  rw [h0, List.nil_append] at h1
  simp only [pendContent, List.append_nil]
  exact h1

/-! ### The well-formedness invariant: children collected so far are well
formed and strictly deeper; open frames have strictly increasing levels
towards the top of the stack -/

/-- An open frame is sound when all children collected so far are well
formed and strictly deeper than the frame itself. -/
def frameOK (f : Frame) : Prop :=
  ∀ c ∈ f.children, treeWF c = true ∧ f.level < c.levelOf

/-- Each frame on the stack is strictly deeper than the frame below it. -/
def stackChain (st : List Frame) : Prop :=
  List.Chain' (fun a b => b.level < a.level) st

theorem frameOK_addChild (f : Frame) (t : HTree)
    (hf : frameOK f) (ht : treeWF t = true) (hl : f.level < t.levelOf) :
    frameOK (addChild f t) := by
  intro c hc
  rcases List.mem_append.mp hc with h | h
  · exact hf c h
  · rcases List.mem_singleton.mp h with rfl
    exact ⟨ht, hl⟩

theorem treeWF_closeFrame (f : Frame) (hf : frameOK f) :
    treeWF (closeFrame f) = true := by
  rw [closeFrame, treeWF_node_iff]
  intro c hc
  exact ⟨(hf c hc).2, (hf c hc).1⟩

theorem levelOf_closeFrame (f : Frame) : (closeFrame f).levelOf = f.level := rfl

/-- Invariant preservation through the pop loop.  The pending tree, when
present, is well formed and strictly deeper than the current stack top. -/
theorem popGE_wf (lvl : Nat) :
    ∀ (st : List Frame) (p : Option HTree) (hd : List HTree),
      (∀ t ∈ hd, treeWF t = true) →
      (∀ f ∈ st, frameOK f) →
      stackChain st →
      (∀ t, p = some t → treeWF t = true ∧
        ∀ f, st.head? = some f → f.level < t.levelOf) →
      (∀ t ∈ (popGE lvl p st hd).2, treeWF t = true) ∧
      (∀ f ∈ (popGE lvl p st hd).1, frameOK f) ∧
      stackChain (popGE lvl p st hd).1 ∧
      (∀ f, (popGE lvl p st hd).1.head? = some f → f.level < lvl) := by
  intro st
  induction st with
  | nil =>
    intro p hd hhd _ _ hp
    refine ⟨?_, by simp [popGE], by simp [popGE, stackChain], by simp [popGE]⟩
    intro t ht
    simp only [popGE] at ht
    rcases List.mem_append.mp ht with h | h
    · exact hhd t h
    · cases p with
      | none => simp at h
      | some t' =>
        simp only [Option.toList_some, List.mem_singleton] at h
        subst h
        exact (hp t rfl).1
  | cons f rest ih =>
    intro p hd hhd hfr hch hp
    have hfOK : frameOK (attachPending p f) := by
      cases p with
      | none => exact hfr f (List.mem_cons_self f rest)
      | some t =>
        exact frameOK_addChild f t (hfr f (List.mem_cons_self f rest))
          (hp t rfl).1 ((hp t rfl).2 f rfl)
    by_cases h : lvl ≤ f.level
    · have hstep : popGE lvl p (f :: rest) hd =
          popGE lvl (some (closeFrame (attachPending p f))) rest hd := by
        simp only [popGE, h, if_true]
      rw [hstep]
      apply ih
      · exact hhd
      · exact fun g hg => hfr g (List.mem_cons_of_mem f hg)
      · exact (List.chain'_cons'.mp hch).2
      · intro t ht
        injection ht with ht
        subst ht
        constructor
        · exact treeWF_closeFrame _ hfOK
        · intro g hg
          rw [levelOf_closeFrame, attachPending_level]
          exact (List.chain'_cons'.mp hch).1 g hg
    · have hstep : popGE lvl p (f :: rest) hd =
          (attachPending p f :: rest, hd) := by
        simp only [popGE, h, if_false]
      rw [hstep]
      refine ⟨hhd, ?_, ?_, ?_⟩
      · intro g hg
        rcases List.mem_cons.mp hg with rfl | hg
        · exact hfOK
        · exact hfr g (List.mem_cons_of_mem f hg)
      · apply List.chain'_cons'.mpr
        refine ⟨?_, (List.chain'_cons'.mp hch).2⟩
        intro g hg
        rw [attachPending_level]
        exact (List.chain'_cons'.mp hch).1 g hg
      · intro g hg
        injection hg with hg
        subst hg
        rw [attachPending_level]
        omega

/-- Closing every remaining frame yields only well-formed trees. -/
theorem closeAll_wf :
    ∀ (st : List Frame) (p : Option HTree) (hd : List HTree),
      (∀ t ∈ hd, treeWF t = true) →
      (∀ f ∈ st, frameOK f) →
      stackChain st →
      (∀ t, p = some t → treeWF t = true ∧
        ∀ f, st.head? = some f → f.level < t.levelOf) →
      ∀ t ∈ closeAll p st hd, treeWF t = true := by
  intro st
  induction st with
  | nil =>
    intro p hd hhd _ _ hp t ht
    simp only [closeAll] at ht
    rcases List.mem_append.mp ht with h | h
    · exact hhd t h
    · cases p with
      | none => simp at h
      | some t' =>
        simp only [Option.toList_some, List.mem_singleton] at h
        subst h
        exact (hp t rfl).1
  | cons f rest ih =>
    intro p hd hhd hfr hch hp
    have hfOK : frameOK (attachPending p f) := by
      cases p with
      | none => exact hfr f (List.mem_cons_self f rest)
      | some t =>
        exact frameOK_addChild f t (hfr f (List.mem_cons_self f rest))
          (hp t rfl).1 ((hp t rfl).2 f rfl)
    have hstep : closeAll p (f :: rest) hd =
        closeAll (some (closeFrame (attachPending p f))) rest hd := by
      simp only [closeAll]
    rw [hstep]
    apply ih
    · exact hhd
    · exact fun g hg => hfr g (List.mem_cons_of_mem f hg)
    · exact (List.chain'_cons'.mp hch).2
    · intro t ht
      injection ht with ht
      subst ht
      constructor
      · exact treeWF_closeFrame _ hfOK
      · intro g hg
        rw [levelOf_closeFrame, attachPending_level]
        exact (List.chain'_cons'.mp hch).1 g hg

/-- The full scan-state invariant. -/
def stateWF (s : HState) : Prop :=
  (∀ t ∈ s.headers, treeWF t = true) ∧
  (∀ f ∈ s.stack, frameOK f) ∧
  stackChain s.stack

theorem stateWF_init : stateWF initState := by
  refine ⟨by simp [initState], by simp [initState], ?_⟩
  simp [initState, stackChain]

theorem stateWF_step (s : HState) (h : Nat × String)
    (hs : stateWF s) : stateWF (step s h) := by
  obtain ⟨hhd, hfr, hch⟩ := hs
  have hpop := popGE_wf h.1 s.stack none s.headers hhd hfr hch
    (by intro t ht; cases ht)
  unfold step stateWF
  refine ⟨hpop.1, ?_, ?_⟩
  · intro f hf
    rcases List.mem_cons.mp hf with rfl | hf
    · intro c hc; cases hc
    · exact hpop.2.1 f hf
  · apply List.chain'_cons'.mpr
    exact ⟨fun g hg => hpop.2.2.2 g hg, hpop.2.2.1⟩

theorem stateWF_foldl (hs : List (Nat × String)) :
    ∀ s : HState, stateWF s → stateWF (hs.foldl step s) := by
  induction hs with
  | nil => intro s h; exact h
  | cons h rest ih =>
    intro s hws
    exact ih (step s h) (stateWF_step s h hws)

/-- Every tree of the built forest is well formed: children always have
strictly greater levels than their parents. -/
theorem buildForest_wf (hs : List (Nat × String)) :
    ∀ t ∈ buildForest hs, treeWF t = true := by
  have h := stateWF_foldl hs initState stateWF_init
  obtain ⟨hhd, hfr, hch⟩ := h
  unfold buildForest
  exact closeAll_wf _ none _ hhd hfr hch (by intro t ht; cases ht)

/-! ### Root attachment: a header at least as shallow as every open header
empties the stack and ends up as a root of the final forest -/

/-- If the new level is at most every open level, the pop loop empties the
stack. -/
theorem popGE_popsAll (lvl : Nat) :
    ∀ (st : List Frame) (p : Option HTree) (hd : List HTree),
      (∀ f ∈ st, lvl ≤ f.level) → (popGE lvl p st hd).1 = [] := by
  intro st
  induction st with
  | nil => intro p hd _; simp [popGE]
  | cons f rest ih =>
    intro p hd hall
    have h : lvl ≤ f.level := hall f (List.mem_cons_self f rest)
    have hstep : popGE lvl p (f :: rest) hd =
        popGE lvl (some (closeFrame (attachPending p f))) rest hd := by
      simp only [popGE, h, if_true]
    rw [hstep]
    exact ih _ hd (fun g hg => hall g (List.mem_cons_of_mem f hg))

/-- Finished roots are never removed by the pop loop. -/
theorem popGE_headers_mono (lvl : Nat) :
    ∀ (st : List Frame) (p : Option HTree) (hd : List HTree) (t : HTree),
      t ∈ hd → t ∈ (popGE lvl p st hd).2 := by
  intro st
  induction st with
  | nil =>
    intro p hd t ht
    simp only [popGE]
    exact List.mem_append_left _ ht
  | cons f rest ih =>
    intro p hd t ht
    by_cases h : lvl ≤ f.level
    · have hstep : popGE lvl p (f :: rest) hd =
          popGE lvl (some (closeFrame (attachPending p f))) rest hd := by
        simp only [popGE, h, if_true]
      rw [hstep]
      exact ih _ hd t ht
    · have hstep : popGE lvl p (f :: rest) hd =
          (attachPending p f :: rest, hd) := by
        simp only [popGE, h, if_false]
      rw [hstep]
      exact ht

/-- Finished roots are never removed by the final closing pass either. -/
theorem closeAll_headers_mono :
    ∀ (st : List Frame) (p : Option HTree) (hd : List HTree) (t : HTree),
      t ∈ hd → t ∈ closeAll p st hd := by
  intro st
  induction st with
  | nil =>
    intro p hd t ht
    simp only [closeAll]
    exact List.mem_append_left _ ht
  | cons f rest ih =>
    intro p hd t ht
    have hstep : closeAll p (f :: rest) hd =
        closeAll (some (closeFrame (attachPending p f))) rest hd := by
      simp only [closeAll]
    rw [hstep]
    exact ih _ hd t ht

/-- The bottom frame of the stack either survives a pop loop (with the same
level and text) or closes into a finished root with that level and text. -/
theorem popGE_bottom (lvl : Nat) :
    ∀ (st : List Frame) (p : Option HTree) (hd : List HTree) (f : Frame),
      st.getLast? = some f →
      (∃ f', (popGE lvl p st hd).1.getLast? = some f' ∧
        f'.level = f.level ∧ f'.text = f.text) ∨
      (∃ cs, HTree.node f.level f.text cs ∈ (popGE lvl p st hd).2) := by
  intro st
  induction st with
  | nil => intro p hd f hf; cases hf
  | cons g rest ih =>
    intro p hd f hf
    by_cases h : lvl ≤ g.level
    · have hstep : popGE lvl p (g :: rest) hd =
          popGE lvl (some (closeFrame (attachPending p g))) rest hd := by
        simp only [popGE, h, if_true]
      rw [hstep]
      cases rest with
      | nil =>
        have hg : g = f := by
          simpa using hf
        subst hg
        right
        refine ⟨(attachPending p g).children, ?_⟩
        have hclose : closeFrame (attachPending p g) =
            HTree.node g.level g.text (attachPending p g).children := by
          rw [closeFrame_eq_node, attachPending_level, attachPending_text]
        rw [← hclose]
        simp [popGE]
      | cons g2 rest2 =>
        have hlast : (g2 :: rest2).getLast? = some f := by
          simpa using hf
        exact ih _ hd f hlast
    · have hstep : popGE lvl p (g :: rest) hd =
          (attachPending p g :: rest, hd) := by
        simp only [popGE, h, if_false]
      rw [hstep]
      cases rest with
      | nil =>
        have hg : g = f := by simpa using hf
        subst hg
        left
        exact ⟨attachPending p g, by simp, attachPending_level p g,
          attachPending_text p g⟩
      | cons g2 rest2 =>
        have hlast : (g2 :: rest2).getLast? = some f := by simpa using hf
        left
        refine ⟨f, ?_, rfl, rfl⟩
        rw [List.getLast?_cons_cons]
        exact hlast

/-- The bottom frame of the stack closes into a finished root during the
final closing pass. -/
theorem closeAll_bottom :
    ∀ (st : List Frame) (p : Option HTree) (hd : List HTree) (f : Frame),
      st.getLast? = some f →
      ∃ cs, HTree.node f.level f.text cs ∈ closeAll p st hd := by
  intro st
  induction st with
  | nil => intro p hd f hf; cases hf
  | cons g rest ih =>
    intro p hd f hf
    have hstep : closeAll p (g :: rest) hd =
        closeAll (some (closeFrame (attachPending p g))) rest hd := by
      simp only [closeAll]
    rw [hstep]
    cases rest with
    | nil =>
      have hg : g = f := by simpa using hf
      subst hg
      refine ⟨(attachPending p g).children, ?_⟩
      have hclose : closeFrame (attachPending p g) =
          HTree.node g.level g.text (attachPending p g).children := by
        rw [closeFrame_eq_node, attachPending_level, attachPending_text]
      rw [← hclose]
      simp [closeAll]
    | cons g2 rest2 =>
      have hlast : (g2 :: rest2).getLast? = some f := by simpa using hf
      exact ih _ hd f hlast

/-- A header with level `L` and text `T` is tracked by a state when it is
still the bottom open frame or has already closed into a finished root. -/
def tracks (L : Nat) (T : String) (s : HState) : Prop :=
  (∃ f, s.stack.getLast? = some f ∧ f.level = L ∧ f.text = T) ∨
  (∃ cs, HTree.node L T cs ∈ s.headers)

theorem tracks_step (L : Nat) (T : String) (s : HState) (h : Nat × String)
    (ht : tracks L T s) : tracks L T (step s h) := by
  rcases ht with ⟨f, hf, hL, hT⟩ | ⟨cs, hcs⟩
  · subst hL; subst hT
    rcases popGE_bottom h.1 s.stack none s.headers f hf with
      ⟨f', hf', hL', hT'⟩ | ⟨cs, hcs⟩
    · left
      refine ⟨f', ?_, hL', hT'⟩
      show (⟨h.1, h.2, []⟩ :: (popGE h.1 none s.stack s.headers).1).getLast?
        = some f'
      rcases hstack : (popGE h.1 none s.stack s.headers).1 with _ | ⟨g, gs⟩
      · rw [hstack] at hf'; cases hf'
      · rw [hstack] at hf'
        rw [List.getLast?_cons_cons]
        exact hf'
    · right
      exact ⟨cs, hcs⟩
  · right
    exact ⟨cs, popGE_headers_mono h.1 s.stack none s.headers _ hcs⟩

theorem tracks_foldl (L : Nat) (T : String) (hs : List (Nat × String)) :
    ∀ s : HState, tracks L T s → tracks L T (hs.foldl step s) := by
  induction hs with
  | nil => intro s h; exact h
  | cons h rest ih =>
    intro s hts
    exact ih (step s h) (tracks_step L T s h hts)

theorem tracks_closeAll (L : Nat) (T : String) (s : HState)
    (ht : tracks L T s) :
    ∃ cs, HTree.node L T cs ∈ closeAll none s.stack s.headers := by
  rcases ht with ⟨f, hf, hL, hT⟩ | ⟨cs, hcs⟩
  · subst hL; subst hT
    exact closeAll_bottom s.stack none s.headers f hf
  · exact ⟨cs, closeAll_headers_mono s.stack none s.headers _ hcs⟩

/-- A header whose level is at most the level of every open header becomes a
root node of the final forest, whatever headers follow it. -/
theorem buildForest_root_attach (pre rest : List (Nat × String))
    (lvl : Nat) (txt : String)
    (h : ∀ f ∈ (pre.foldl step initState).stack, lvl ≤ f.level) :
    ∃ cs, HTree.node lvl txt cs ∈ buildForest (pre ++ (lvl, txt) :: rest) := by
  have hfold : (pre ++ (lvl, txt) :: rest).foldl step initState =
      rest.foldl step (step (pre.foldl step initState) (lvl, txt)) := by
    rw [List.foldl_append, List.foldl_cons]
  have hempty : (popGE lvl none (pre.foldl step initState).stack
      (pre.foldl step initState).headers).1 = [] :=
    popGE_popsAll lvl _ none _ h
  have htr : tracks lvl txt (step (pre.foldl step initState) (lvl, txt)) := by
    left
    refine ⟨⟨lvl, txt, []⟩, ?_, rfl, rfl⟩
    show (⟨lvl, txt, []⟩ ::
      (popGE lvl none (pre.foldl step initState).stack
        (pre.foldl step initState).headers).1).getLast? = some ⟨lvl, txt, []⟩
    rw [hempty]
    rfl
  have := tracks_foldl lvl txt rest _ htr
  unfold buildForest
  rw [hfold]
  exact tracks_closeAll lvl txt _ this

/-! ### Scanning the rendered lines for header tags

The source renders the markdown with the external `markdown` library and
splits the result on newlines; a line is a header line when it starts with
`<h` followed by a digit.  The header text is the slice between the first
`>` and the last `<` of the line; `line.index(">")` raises when the line has
no `>`, rendered here as a `none` result for the whole scan. -/

/-- Index of the first occurrence of a character (Python `str.index`). -/
def firstIdx (c : Char) : List Char → Option Nat
  | [] => none
  | x :: xs => if x = c then some 0 else (firstIdx c xs).map (· + 1)

/-- Index of the last occurrence of a character (Python `str.rindex`). -/
def lastIdx (c : Char) (l : List Char) : Option Nat :=
  (firstIdx c l.reverse).map (fun i => l.length - 1 - i)

/-- The line scan of `extract_headers`: collect `(level, text)` for each
line starting with `<h` plus an ASCII digit (Python `int(line[2])` on the
digit), slicing the text as `line[line.index(">") + 1 : line.rindex("<")]`.
A header-shaped line without any `>` makes the source raise `ValueError`,
modelled as `none`. -/
def scanHeaders : List (List Char) → Option (List (Nat × String))
  | [] => some []
  | line :: rest =>
    match line with
    | '<' :: 'h' :: c :: _ =>
      if c.isDigit then
        match firstIdx '>' line, lastIdx '<' line with
        | some i, some j =>
          (scanHeaders rest).map
            (fun hs => (c.toNat - 48, String.mk ((line.take j).drop (i + 1))) :: hs)
        | _, _ => none
      else scanHeaders rest
    | _ => scanHeaders rest

/-- Split on newline characters, keeping empty pieces, as Python
`parsed_md.split("\n")` does. -/
def splitLines : List Char → List (List Char)
  | [] => [[]]
  | c :: cs =>
    if c = '\n' then [] :: splitLines cs
    else
      match splitLines cs with
      | [] => [[c]]
      | l :: ls => (c :: l) :: ls

/-- `extract_headers` over the rendered document: split on newlines, scan
for header lines, build the forest with the stack algorithm. -/
def extract_headers (parsed_md : String) : Option (List HTree) :=
  (scanHeaders (splitLines parsed_md.data)).map buildForest

/-- C1: `extract_headers` builds a forest whose nodes have strictly deeper
children, whose depth-first pre-order traversal reproduces the header lines
of the rendered document in order with their levels, and a header whose
level is at most the level of every open header is attached as a root node
of the forest. -/
theorem extract_headers_spec :
    (∀ (parsed_md : String) (hs : List (Nat × String)) (forest : List HTree),
      scanHeaders (splitLines parsed_md.data) = some hs →
      extract_headers parsed_md = some forest →
      (∀ t ∈ forest, treeWF t = true) ∧ preorderF forest = hs) ∧
    (∀ (pre rest : List (Nat × String)) (lvl : Nat) (txt : String),
      (∀ f ∈ (pre.foldl step initState).stack, lvl ≤ f.level) →
      ∃ cs, HTree.node lvl txt cs ∈ buildForest (pre ++ (lvl, txt) :: rest)) := by
  constructor
  · intro parsed_md hs forest hscan hext
    unfold extract_headers at hext
    rw [hscan] at hext
    simp only [Option.map_some', Option.some_inj] at hext
    subst hext
    exact ⟨buildForest_wf hs, preorderF_buildForest hs⟩
  · exact buildForest_root_attach

/-- Witness for C1 on the rendered document `<h3>c</h3>\n<h1>a</h1>`: the
h3 before any h1 is tolerated and both headers are roots. -/
theorem extract_headers_spec_witness :
    ((∀ t ∈ [HTree.node 3 "c" [], HTree.node 1 "a" []], treeWF t = true) ∧
      preorderF [HTree.node 3 "c" [], HTree.node 1 "a" []] =
        [(3, "c"), (1, "a")]) ∧
    ∃ cs, HTree.node 1 "a" cs ∈ buildForest ([(3, "c")] ++ (1, "a") :: []) :=
  ⟨extract_headers_spec.1 "<h3>c</h3>\n<h1>a</h1>" [(3, "c"), (1, "a")]
      [HTree.node 3 "c" [], HTree.node 1 "a" []] rfl rfl,
    extract_headers_spec.2 [(3, "c")] [] 1 "a" (by decide)⟩

/-! ## Locale detection, table of contents and references
(markdown_processing.contains_chinese, table_of_contents, add_references) -/

/-- `contains_chinese`: the source searches for one character in the regex
range `[一-鿿]`, the CJK Unified Ideographs block. -/
def contains_chinese (text : String) : Bool :=
  text.data.any (fun c => 0x4e00 ≤ c.toNat && c.toNat ≤ 0x9fff)

/-- First top-level header text, `headers[0]["text"] if headers else ""` in
the source. -/
def firstHeaderText : List HTree → String
  | [] => ""
  | t :: _ => t.textOf

/-- The inner `generate_table_of_contents` of the source: one bullet line
per header, indented four spaces per nesting level, children rendered
depth-first after their parent. -/
def generate_table_of_contents (headers : List HTree) (indent_level : Nat) :
    String :=
  match headers with
  | [] => ""
  | HTree.node _ t cs :: rest =>
    String.mk (List.replicate (indent_level * 4) ' ') ++ "- " ++ t ++ "\n" ++
      generate_table_of_contents cs (indent_level + 1) ++
      generate_table_of_contents rest indent_level
termination_by sizeOf headers
decreasing_by
  all_goals simp only [HTree.node.sizeOf_spec, List.cons.sizeOf_spec]
  all_goals omega

/-- `table_of_contents`: build the header forest, pick the locale from the
first top-level header text, render the forest as a bulleted list under a
locale-appropriate title, return the rendered list and the locale flag.
As with `extract_headers`, the argument is the rendered form of the report
(the render by the external `markdown` library is not modelled). -/
def table_of_contents (markdown_text : String) : Option (String × Bool) :=
  (extract_headers markdown_text).map fun headers =>
    let first_header_text := firstHeaderText headers
    let is_chinese := contains_chinese first_header_text
    let toc_title := if is_chinese then "## 目录\n\n" else "## Table of Contents\n\n"
    (toc_title ++ generate_table_of_contents headers 0, is_chinese)

/-- `add_references`: append a locale-appropriate references title and one
bullet per visited URL, the URL serving as both label and target.  The
source iterates a Python set; the list argument is that iteration order. -/
def add_references (report_markdown : String) (visited_urls : List String)
    (is_chinese : Bool) : String :=
  let references_title := if is_chinese then "## 参考资料" else "## References"
  let url_markdown := "\n\n\n" ++ references_title ++ "\n\n" ++
    String.join (visited_urls.map (fun url => "- [" ++ url ++ "](" ++ url ++ ")\n"))
  report_markdown ++ url_markdown

/-- C2: `contains_chinese` is true exactly when the text holds a code point
of the CJK Unified Ideographs block, the locale flag returned by
`table_of_contents` is the CJK test of the first top-level header text, the
rendered table of contents carries the matching title, and `add_references`
called with that flag carries the matching references title. -/
theorem contains_cjk_locale_spec :
    (∀ text : String, contains_chinese text = true ↔
      ∃ c ∈ text.data, 0x4e00 ≤ c.toNat ∧ c.toNat ≤ 0x9fff) ∧
    (∀ (parsed_md : String) (headers : List HTree) (toc : String) (flag : Bool),
      extract_headers parsed_md = some headers →
      table_of_contents parsed_md = some (toc, flag) →
      flag = contains_chinese (firstHeaderText headers) ∧
      toc = (if flag then "## 目录\n\n" else "## Table of Contents\n\n") ++
        generate_table_of_contents headers 0 ∧
      ∀ (report : String) (urls : List String),
        ∃ tail : String,
          add_references report urls flag =
            report ++ ("\n\n\n" ++
              (if flag then "## 参考资料" else "## References") ++ "\n\n" ++ tail)) := by
  constructor
  · intro text
    simp [contains_chinese, List.any_eq_true, decide_eq_true_eq]
  · intro parsed_md headers toc flag hext htoc
    unfold table_of_contents at htoc
    rw [hext] at htoc
    simp only [Option.map_some', Option.some_inj, Prod.mk.injEq] at htoc
    obtain ⟨htoc, hflag⟩ := htoc
    subst hflag
    refine ⟨rfl, htoc.symm, ?_⟩
    intro report urls
    exact ⟨String.join (urls.map (fun url => "- [" ++ url ++ "](" ++ url ++ ")\n")),
      by unfold add_references; simp [String.append_assoc]⟩

/-- Witness for C2 on the rendered document `<h1>报告</h1>`, whose first
header text contains the CJK character 报. -/
theorem contains_cjk_locale_spec_witness :
    (contains_chinese "报告" = true ↔
      ∃ c ∈ "报告".data, 0x4e00 ≤ c.toNat ∧ c.toNat ≤ 0x9fff) ∧
    (true = contains_chinese (firstHeaderText [HTree.node 1 "报告" []]) ∧
      "## 目录\n\n- 报告\n" =
        (if true then "## 目录\n\n" else "## Table of Contents\n\n") ++
          generate_table_of_contents [HTree.node 1 "报告" []] 0 ∧
      ∀ (report : String) (urls : List String),
        ∃ tail : String,
          add_references report urls true =
            report ++ ("\n\n\n" ++
              (if true then "## 参考资料" else "## References") ++ "\n\n" ++ tail)) := by
  constructor
  · exact contains_cjk_locale_spec.1 "报告"
  · apply contains_cjk_locale_spec.2 "<h1>报告</h1>"
      [HTree.node 1 "报告" []] "## 目录\n\n- 报告\n" true rfl
    have hg : generate_table_of_contents [HTree.node 1 "报告" []] 0 = "- 报告\n" := by
      rw [generate_table_of_contents, generate_table_of_contents,
        generate_table_of_contents]
      rfl
    have h1 : table_of_contents "<h1>报告</h1>" =
        some ("## 目录\n\n" ++ generate_table_of_contents [HTree.node 1 "报告" []] 0,
          true) := rfl
    rw [h1, hg]
    rfl

/-- C5: `add_references` is a pure append: the result starts with the input
report unchanged, followed by a tail that does not depend on the report and
consists of the locale-appropriate references title and one bullet per
visited URL, the URL being both label and target; with two URLs and the
non-CJK flag the tail is exactly the References heading and two bullets. -/
theorem add_references_spec :
    (∀ (visited_urls : List String) (is_chinese : Bool),
      ∃ tail : String,
        (∀ report : String,
          add_references report visited_urls is_chinese = report ++ tail) ∧
        tail = "\n\n\n" ++
          (if is_chinese then "## 参考资料" else "## References") ++ "\n\n" ++
          String.join (visited_urls.map
            (fun url => "- [" ++ url ++ "](" ++ url ++ ")\n"))) ∧
    (∀ report : String,
      add_references report ["urlA", "urlB"] false =
        report ++ "\n\n\n## References\n\n- [urlA](urlA)\n- [urlB](urlB)\n") := by
  constructor
  · intro visited_urls is_chinese
    refine ⟨"\n\n\n" ++
      (if is_chinese then "## 参考资料" else "## References") ++ "\n\n" ++
      String.join (visited_urls.map
        (fun url => "- [" ++ url ++ "](" ++ url ++ ")\n")), ?_, rfl⟩
    intro report
    unfold add_references
    simp [String.append_assoc]
  · intro report
    unfold add_references
    simp only []
    congr 1

/-- C8: `table_of_contents` is deterministic: equal rendered inputs always
produce equal `(toc, is_cjk)` outputs, and two applications to the same
input agree. -/
theorem table_of_contents_deterministic :
    (∀ markdown_text : String,
      table_of_contents markdown_text = table_of_contents markdown_text) ∧
    (∀ a b : String, a = b → table_of_contents a = table_of_contents b) :=
  ⟨fun _ => rfl, fun _ _ h => by rw [h]⟩

/-- Witness for C8 at a concrete rendered input. -/
theorem table_of_contents_deterministic_witness :
    table_of_contents "<h1>a</h1>" = table_of_contents "<h1>a</h1>" :=
  table_of_contents_deterministic.2 "<h1>a</h1>" "<h1>a</h1>" rfl

/-! ## Section extraction (markdown_processing.extract_sections)

The source matches `<h\d>(.*?)</h\d>(.*?)(?=<h\d>|$)` with DOTALL over the
rendered document: an opening header tag, a non-greedy title up to the first
closing header tag, then a non-greedy body up to the next opening header tag
or the end of input (the anchor also matches just before one final newline).
The digit class is modelled over ASCII digits. -/

/-- The list starts with an opening header tag `<h` digit `>`. -/
def openTagAt : List Char → Bool
  | '<' :: 'h' :: d :: '>' :: _ => d.isDigit
  | _ => false

/-- The list starts with a closing header tag `</h` digit `>`. -/
def closeTagAt : List Char → Bool
  | '<' :: '/' :: 'h' :: d :: '>' :: _ => d.isDigit
  | _ => false

/-- Split at the first closing header tag: the characters before it and the
remainder after it; `none` when no closing tag follows (the non-greedy title
group can never be completed then). -/
def splitAtClose : List Char → Option (List Char × List Char)
  | [] => none
  | c :: cs =>
    if closeTagAt (c :: cs) then some ([], (c :: cs).drop 5)
    else (splitAtClose cs).map (fun p => (c :: p.1, p.2))

/-- Non-greedy body capture: the shortest prefix whose remainder starts with
an opening header tag, or extends to the end of input, stopping just before
one final newline (the `$` anchor of the pattern). -/
def splitAtOpen : List Char → List Char × List Char
  | [] => ([], [])
  | c :: cs =>
    if openTagAt (c :: cs) then ([], c :: cs)
    else if c == '\n' && cs.isEmpty then ([], [c])
    else
      let p := splitAtOpen cs
      (c :: p.1, p.2)

theorem splitAtClose_length :
    ∀ (l a b : List Char), splitAtClose l = some (a, b) → b.length < l.length := by
  intro l
  induction l with
  | nil => intro a b h; cases h
  | cons c cs ih =>
    intro a b h
    simp only [splitAtClose] at h
    split at h
    · simp only [Option.some_inj, Prod.mk.injEq] at h
      obtain ⟨-, rfl⟩ := h
      simp only [List.length_drop, List.length_cons]
      omega
    · rw [Option.map_eq_some'] at h
      obtain ⟨⟨a', b'⟩, hsc, heq⟩ := h
      have hb : b' = b := congrArg Prod.snd heq
      subst hb
      have := ih a' b' hsc
      simp only [List.length_cons]
      omega

theorem splitAtOpen_length (l : List Char) :
    (splitAtOpen l).2.length ≤ l.length := by
  induction l with
  | nil => simp [splitAtOpen]
  | cons c cs ih =>
    simp only [splitAtOpen]
    split
    · simp
    · split
      · simp
      · simp only [List.length_cons]
        omega

/-- The scan of `re.findall` for the section pattern: find an opening header
tag, complete the title group at the first closing tag, capture the body up
to the next opening tag or the end, and resume scanning at the position
after the match.  A failed attempt (opening tag without any later closing
tag) resumes scanning at the next character, as the regex engine does. -/
def findSections (l : List Char) : List (String × String) :=
  match l with
  | [] => []
  | c :: cs =>
    if openTagAt (c :: cs) then
      match hsc : splitAtClose ((c :: cs).drop 4) with
      | none => findSections cs
      | some (title, rest) =>
        let p := splitAtOpen rest
        (String.mk title, String.mk p.1) :: findSections p.2
    else findSections cs
termination_by l.length
decreasing_by
  · simp only [List.length_cons]; omega
  · have h1 := splitAtClose_length _ _ _ hsc
    have h2 := splitAtOpen_length rest
    simp only [List.length_drop, List.length_cons] at h1 ⊢
    omega
  · simp only [List.length_cons]; omega

/-- One `re.sub` match attempt for `<.*?>` after a `<`: the characters up to
the first `>`, failing when a newline comes first (the un-flagged dot of the
substitution pattern does not match newlines). -/
def stripTagFrom : List Char → Option (List Char)
  | [] => none
  | c :: cs =>
    if c = '>' then some cs
    else if c = '\n' then none
    else stripTagFrom cs

theorem stripTagFrom_length :
    ∀ (l rest : List Char), stripTagFrom l = some rest → rest.length < l.length := by
  intro l
  induction l with
  | nil => intro rest h; cases h
  | cons c cs ih =>
    intro rest h
    by_cases hgt : c = '>'
    · simp only [stripTagFrom, hgt, if_true, Option.some_inj] at h
      subst h
      simp
    · by_cases hnl : c = '\n'
      · simp only [stripTagFrom, hgt, if_false, hnl, if_true] at h
        cases h
      · simp only [stripTagFrom, hgt, if_false, hnl] at h
        have := ih rest h
        simp only [List.length_cons]
        omega

/-- `re.sub(r'<.*?>', '', content)`: delete every shortest `<...>` span not
containing a newline, scanning left to right. -/
def removeTags (l : List Char) : List Char :=
  match l with
  | [] => []
  | c :: cs =>
    if c = '<' then
      match hst : stripTagFrom cs with
      | some rest => removeTags rest
      | none => c :: removeTags cs
    else c :: removeTags cs
termination_by l.length
decreasing_by
  · have := stripTagFrom_length _ _ hst
    simp only [List.length_cons]
    omega
  · simp only [List.length_cons]; omega
  · simp only [List.length_cons]; omega

/-- Python `str.strip()` over the characters of a string (ASCII whitespace
plus the vertical-tab and form-feed characters; other Unicode spaces are out
of scope of the model). -/
def pyWhitespace (c : Char) : Bool :=
  c.isWhitespace || c = '\x0b' || c = '\x0c'

def pyStrip (l : List Char) : List Char :=
  ((l.dropWhile pyWhitespace).reverse.dropWhile pyWhitespace).reverse

/-- One extracted section, the dictionary
`{"section_title": ..., "written_content": ...}` of the source. -/
structure Section where
  section_title : String
  written_content : String
deriving Repr, DecidableEq

/-- Body of the loop over the matches in the source: strip markup from the
captured body, trim it, and keep the section only when the result is
non-empty; the kept section carries the trimmed title. -/
def sectionOfMatch (m : String × String) : Option Section :=
  let clean_content := pyStrip (removeTags m.2.data)
  if clean_content.isEmpty then none
  else some ⟨String.mk (pyStrip m.1.data), String.mk clean_content⟩

/-- `extract_sections`: run the section scan over the rendered document,
strip markup from each body, and keep only sections whose stripped, trimmed
body is non-empty. -/
def extract_sections (parsed_md : String) : List Section :=
  (findSections parsed_md.data).filterMap sectionOfMatch

/-- The cleaned view of one raw match, before the emptiness filter; used to
state what `extract_sections` keeps and drops. -/
def cleanSection (m : String × String) : Section :=
  ⟨String.mk (pyStrip m.1.data), String.mk (pyStrip (removeTags m.2.data))⟩

theorem string_mk_eq_empty_iff (l : List Char) : String.mk l = "" ↔ l = [] := by
  constructor
  · intro h
    have := congrArg String.data h
    simpa using this
  · intro h; subst h; rfl

theorem sectionOfMatch_eq (m : String × String) :
    sectionOfMatch m =
      if (pyStrip (removeTags m.2.data)).isEmpty then none
      else some (cleanSection m) := rfl

/-- C4: `extract_sections` returns, in document order, the cleaned section
of every raw match of the section pattern whose stripped, trimmed body is
non-empty, and no section whose stripped, trimmed body is empty; on the
rendered form of `# A\nbody1\n# B\n\n` only the `A` section with body
`body1` remains and the `B` section is dropped. -/
theorem extract_sections_spec :
    (∀ parsed_md : String,
      extract_sections parsed_md =
        ((findSections parsed_md.data).map cleanSection).filter
          (fun s => decide (s.written_content ≠ ""))) ∧
    (∀ (parsed_md : String) (s : Section),
      s ∈ extract_sections parsed_md → s.written_content ≠ "") ∧
    extract_sections "<h1>A</h1>\n<p>body1</p>\n<h1>B</h1>" =
      [⟨"A", "body1"⟩] := by
  have key : ∀ parsed_md : String,
      extract_sections parsed_md =
        ((findSections parsed_md.data).map cleanSection).filter
          (fun s => decide (s.written_content ≠ "")) := by
    intro parsed_md
    unfold extract_sections
    generalize findSections parsed_md.data = L
    induction L with
    | nil => rfl
    | cons m rest ih =>
      rw [List.filterMap_cons, List.map_cons, List.filter_cons, sectionOfMatch_eq]
      by_cases hm : (pyStrip (removeTags m.2.data)).isEmpty = true
      · have hl : pyStrip (removeTags m.2.data) = [] := List.isEmpty_iff.mp hm
        have hempty : (cleanSection m).written_content = "" := by
          simp [cleanSection, hl]
        simp [hm, hempty, ih]
      · have hl : pyStrip (removeTags m.2.data) ≠ [] := by
          simpa [List.isEmpty_iff] using hm
        have hne : (cleanSection m).written_content ≠ "" := by
          simp only [cleanSection]
          exact fun h => hl ((string_mk_eq_empty_iff _).mp h)
        rw [Bool.not_eq_true] at hm
        simp [hm, hne, ih]
  refine ⟨key, ?_, ?_⟩
  · intro parsed_md s hs
    rw [key] at hs
    have := List.of_mem_filter hs
    simpa using this
  · rw [key]
    have hfs : findSections "<h1>A</h1>\n<p>body1</p>\n<h1>B</h1>".data =
        [("A", "\n<p>body1</p>\n"), ("B", "")] := by
      simp [findSections, splitAtClose, splitAtOpen, openTagAt, closeTagAt]
    rw [hfs]
    simp [cleanSection, removeTags, stripTagFrom, pyStrip, pyWhitespace,
      List.filter, string_mk_eq_empty_iff]

/-- Witness for C4: the kept section of the concrete document has a
non-empty body. -/
theorem extract_sections_spec_witness :
    (⟨"A", "body1"⟩ : Section) ∈
      extract_sections "<h1>A</h1>\n<p>body1</p>\n<h1>B</h1>" ∧
    (⟨"A", "body1"⟩ : Section).written_content ≠ "" :=
  have hmem : (⟨"A", "body1"⟩ : Section) ∈
      extract_sections "<h1>A</h1>\n<p>body1</p>\n<h1>B</h1>" := by
    rw [extract_sections_spec.2.2]
    exact List.mem_singleton.mpr rfl
  ⟨hmem, extract_sections_spec.2.1 _ _ hmem⟩

/-! ## The writer stage (multi_agents/agents/writer.py, WriterAgent)

`WriterAgent.run` reads the research state, talks to the external model via
`call_model`, and either streams progress events over the websocket (when
both `self.websocket` and `self.stream_output` are truthy) or prints to the
local diagnostic sink via `print_agent_output`.  The model is external, so
the run is parameterized by the two model responses; the observable actions
are collected as a trace in source order. -/

/-- A Python value as far as the writer stage passes them around: None,
strings and dictionaries. -/
inductive Val where
  | vnone : Val
  | vstr (s : String) : Val
  | vdict (entries : List (String × Val)) : Val

/-- One observable action of `WriterAgent.run`: a progress event streamed to
the websocket (`stream_output("logs", key, value, websocket)`), a line
printed to the local diagnostic sink (`print_agent_output`), or a call of
the external model. -/
inductive TraceEv where
  | stream (eventType key : String) (value : Val)
  | printAgent (output : Val) (agent : String)
  | modelCall (name : String)

/-- `WriterAgent.get_headers`: the fixed default label set, the title taken
from the research state. -/
def get_headers (title : Val) : List (String × Val) :=
  [("title", title), ("date", .vstr "日期"), ("introduction", .vstr "引言"),
    ("table_of_contents", .vstr "目录"), ("conclusion", .vstr "结论"),
    ("references", .vstr "参考资料")]

/-- Python dictionary update `{**d, k: v}` over an association list with
the keys in insertion order: replace the value at an existing key in place,
otherwise append the new entry at the end. -/
def dictSet (d : List (String × Val)) (k : String) (v : Val) :
    List (String × Val) :=
  if d.any (fun p => decide (p.1 = k)) then
    d.map (fun p => if p.1 = k then (k, v) else p)
  else d ++ [(k, v)]

/-- Python dictionary access `d.get(k)` over the association list. -/
def pyGet (d : List (String × Val)) (k : String) : Option Val :=
  match d with
  | [] => none
  | (k', v) :: rest => if k = k' then some v else pyGet rest k

/-- The parts of the research state read by `WriterAgent.run`: the title
(used by `get_headers`) and the truthiness of the `follow_guidelines` and
`verbose` task flags. -/
structure ResearchState where
  title : Val
  follow_guidelines : Bool
  verbose : Bool

/-- Responses of the two external model calls: the JSON dictionary returned
by the `write_sections` call (`run` spreads it into the returned update, so
it is a mapping) and the value returned by the `revise_headers` call.
`revise_headers` wraps its response as `{"headers": response}` and `run`
unwraps it with `.get("headers")`, so the unwrapped value is the response
itself. -/
structure ModelResponses where
  sectionsResponse : List (String × Val)
  reviseResponse : Val

/-- `WriterAgent.run`: emit the writing-report notice, call the model for
the sections, emit the layout dictionary when verbose, revise the headers
when the guideline flag is set (with its own notice), and return the model
response with the computed headers stored under `"headers"`.  The verbose
stream event serializes the response with the external json library in the
source; the value is carried unserialized here. -/
def writer_run (websocket stream_output : Bool) (st : ResearchState)
    (env : ModelResponses) : List TraceEv × List (String × Val) :=
  let cap := websocket && stream_output
  let e1 : List TraceEv :=
    if cap then
      [.stream "logs" "writing_report"
        (.vstr "Writing final research report based on research data...")]
    else
      [.printAgent
        (.vstr "Writing final research report based on research data...")
        "WRITER"]
  let e2 : List TraceEv :=
    if st.verbose then
      if cap then
        [.stream "logs" "research_layout_content" (.vdict env.sectionsResponse)]
      else [.printAgent (.vdict env.sectionsResponse) "WRITER"]
    else []
  let e3 : List TraceEv :=
    if st.follow_guidelines then
      if cap then
        [.stream "logs" "rewriting_layout"
          (.vstr "Rewriting layout based on guidelines...")]
      else [.printAgent (.vstr "Rewriting layout based on guidelines...") "WRITER"]
    else []
  let c2 : List TraceEv :=
    if st.follow_guidelines then [.modelCall "revise_headers"] else []
  let headers : Val :=
    if st.follow_guidelines then env.reviseResponse
    else .vdict (get_headers st.title)
  (e1 ++ [.modelCall "write_sections"] ++ e2 ++ e3 ++ c2,
    dictSet env.sectionsResponse "headers" headers)

/-- The keys of the streamed progress events of a trace, in order. -/
def streamKeys (tr : List TraceEv) : List String :=
  tr.filterMap (fun e => match e with
    | .stream _ k _ => some k
    | _ => none)

def isStream : TraceEv → Bool
  | .stream _ _ _ => true
  | _ => false

def isLocalPrint : TraceEv → Bool
  | .printAgent _ _ => true
  | _ => false

/-- C3 counterexample: with the progress capability attached, the verbose
task flag set and the guideline flag unset, the run streams the named event
`research_layout_content` in addition to `writing_report`, so the set of
emitted named progress events is not restricted to `writing_report` and the
conditional `rewriting_layout`. -/
theorem writer_run_events_counterexample :
    streamKeys (writer_run true true ⟨Val.vnone, false, true⟩
        ⟨[], Val.vnone⟩).1 =
      ["writing_report", "research_layout_content"] ∧
    ¬ ("research_layout_content" = "writing_report" ∨
        "research_layout_content" = "rewriting_layout") := by
  refine ⟨rfl, ?_⟩
  decide

/-- C3 amended: with the capability attached the run streams exactly
`writing_report` (before the section-writing model call), then
`research_layout_content` when the verbose flag is set, then
`rewriting_layout` when the guideline flag is set, and prints nothing to the
local sink; without the capability it streams nothing and prints to the
local sink instead; the two reporting modes are never mixed in one
invocation. -/
theorem writer_run_events (websocket stream_output : Bool)
    (st : ResearchState) (env : ModelResponses) :
    (streamKeys (writer_run websocket stream_output st env).1 =
      if websocket && stream_output then
        ["writing_report"] ++
          (if st.verbose then ["research_layout_content"] else []) ++
          (if st.follow_guidelines then ["rewriting_layout"] else [])
      else []) ∧
    ((websocket && stream_output) = true →
      (writer_run websocket stream_output st env).1.filter isLocalPrint = []) ∧
    ((websocket && stream_output) = false →
      ((writer_run websocket stream_output st env).1.filter isStream = [] ∧
        (writer_run websocket stream_output st env).1.filter isLocalPrint ≠ [])) ∧
    ((writer_run websocket stream_output st env).1.filter isStream = [] ∨
      (writer_run websocket stream_output st env).1.filter isLocalPrint = []) ∧
    ((websocket && stream_output) = true →
      (writer_run websocket stream_output st env).1.head? =
        some (.stream "logs" "writing_report"
          (.vstr "Writing final research report based on research data...")) ∧
      (writer_run websocket stream_output st env).1[1]? =
        some (.modelCall "write_sections")) := by
  obtain ⟨title, fg, vb⟩ := st
  cases websocket <;> cases stream_output <;> cases fg <;> cases vb <;>
    simp [writer_run, streamKeys, isStream, isLocalPrint]

/-- Witness for C3 (amended) in both reporting modes. -/
theorem writer_run_events_witness :
    ((writer_run true true ⟨Val.vnone, true, true⟩ ⟨[], Val.vnone⟩).1.head? =
        some (.stream "logs" "writing_report"
          (.vstr "Writing final research report based on research data...")) ∧
      (writer_run true true ⟨Val.vnone, true, true⟩ ⟨[], Val.vnone⟩).1[1]? =
        some (.modelCall "write_sections")) ∧
    ((writer_run false true ⟨Val.vnone, true, true⟩
        ⟨[], Val.vnone⟩).1.filter isStream = [] ∧
      (writer_run false true ⟨Val.vnone, true, true⟩
        ⟨[], Val.vnone⟩).1.filter isLocalPrint ≠ []) :=
  ⟨(writer_run_events true true ⟨Val.vnone, true, true⟩ ⟨[], Val.vnone⟩).2.2.2.2
      rfl,
    (writer_run_events false true ⟨Val.vnone, true, true⟩ ⟨[], Val.vnone⟩).2.2.1
      rfl⟩

theorem pyGet_map_replace_self (k : String) (v : Val) :
    ∀ d : List (String × Val), d.any (fun p => decide (p.1 = k)) = true →
      pyGet (d.map (fun p => if p.1 = k then (k, v) else p)) k = some v := by
  intro d
  induction d with
  | nil => intro h; cases h
  | cons a d' ih =>
    obtain ⟨a1, a2⟩ := a
    intro h
    by_cases ha : a1 = k
    · have hhead : (if ((a1, a2) : String × Val).1 = k then (k, v)
          else (a1, a2)) = (k, v) := by simp [ha]
      rw [List.map_cons, hhead]
      simp [pyGet]
    · have h' : d'.any (fun p => decide (p.1 = k)) = true := by
        rcases Bool.or_eq_true_iff.mp (List.any_cons .. ▸ h) with h1 | h2
        · exact absurd (of_decide_eq_true h1) ha
        · exact h2
      have hhead : (if ((a1, a2) : String × Val).1 = k then (k, v)
          else (a1, a2)) = (a1, a2) := by simp [ha]
      rw [List.map_cons, hhead]
      simp only [pyGet]
      rw [if_neg (Ne.symm ha)]
      exact ih h'

theorem pyGet_map_replace_other (k : String) (v : Val) (k' : String)
    (hk : k' ≠ k) :
    ∀ d : List (String × Val),
      pyGet (d.map (fun p => if p.1 = k then (k, v) else p)) k' =
        pyGet d k' := by
  intro d
  induction d with
  | nil => rfl
  | cons a d' ih =>
    obtain ⟨a1, a2⟩ := a
    by_cases ha : a1 = k
    · have hhead : (if ((a1, a2) : String × Val).1 = k then (k, v)
          else (a1, a2)) = (k, v) := by simp [ha]
      rw [List.map_cons, hhead]
      simp only [pyGet]
      rw [if_neg hk, if_neg (ha ▸ hk)]
      exact ih
    · have hhead : (if ((a1, a2) : String × Val).1 = k then (k, v)
          else (a1, a2)) = (a1, a2) := by simp [ha]
      rw [List.map_cons, hhead]
      simp only [pyGet]
      by_cases hb : k' = a1
      · rw [if_pos hb, if_pos hb]
      · rw [if_neg hb, if_neg hb]
        exact ih

theorem pyGet_none_of_not_found (k : String) :
    ∀ d : List (String × Val), d.any (fun p => decide (p.1 = k)) = false →
      pyGet d k = none := by
  intro d
  induction d with
  | nil => intro _; rfl
  | cons a d' ih =>
    obtain ⟨a1, a2⟩ := a
    intro h
    simp only [List.any_cons, Bool.or_eq_false_iff, decide_eq_false_iff_not]
      at h
    simp only [pyGet]
    rw [if_neg (fun hk => h.1 hk.symm)]
    exact ih h.2

theorem pyGet_append_single (k : String) (v : Val) (k' : String) :
    ∀ d : List (String × Val),
      pyGet (d ++ [(k, v)]) k' =
        match pyGet d k' with
        | some w => some w
        | none => if k' = k then some v else none := by
  intro d
  induction d with
  | nil => rfl
  | cons a d' ih =>
    obtain ⟨a1, a2⟩ := a
    simp only [List.cons_append, pyGet]
    by_cases h : k' = a1
    · rw [if_pos h, if_pos h]
    · rw [if_neg h, if_neg h]
      exact ih

theorem dictSet_pyGet_self (d : List (String × Val)) (k : String) (v : Val) :
    pyGet (dictSet d k v) k = some v := by
  unfold dictSet
  by_cases h : d.any (fun p => decide (p.1 = k)) = true
  · rw [if_pos h]
    exact pyGet_map_replace_self k v d h
  · rw [if_neg h]
    rw [pyGet_append_single]
    rw [pyGet_none_of_not_found k d (by rwa [Bool.not_eq_true] at h)]
    simp

theorem dictSet_pyGet_other (d : List (String × Val)) (k : String) (v : Val)
    (k' : String) (hk : k' ≠ k) :
    pyGet (dictSet d k v) k' = pyGet d k' := by
  unfold dictSet
  by_cases h : d.any (fun p => decide (p.1 = k)) = true
  · rw [if_pos h]
    exact pyGet_map_replace_other k v k' hk d
  · rw [if_neg h]
    rw [pyGet_append_single]
    cases hd : pyGet d k' with
    | some w => rfl
    | none => simp [hk]

/-- C10: the update returned by `WriterAgent.run` maps `"headers"` to the
computed headers value — the default label set when the guideline flag is
unset, the revise-call response when it is set — overriding any `"headers"`
entry of the model response, while every other key keeps the value it has in
the model response. -/
theorem writer_run_update (websocket stream_output : Bool)
    (st : ResearchState) (env : ModelResponses) :
    (pyGet (writer_run websocket stream_output st env).2 "headers" =
      some (if st.follow_guidelines then env.reviseResponse
        else Val.vdict (get_headers st.title))) ∧
    (∀ k : String, k ≠ "headers" →
      pyGet (writer_run websocket stream_output st env).2 k =
        pyGet env.sectionsResponse k) := by
  have hsnd : (writer_run websocket stream_output st env).2 =
      dictSet env.sectionsResponse "headers"
        (if st.follow_guidelines then env.reviseResponse
          else Val.vdict (get_headers st.title)) := rfl
  rw [hsnd]
  exact ⟨dictSet_pyGet_self _ _ _,
    fun k hk => dictSet_pyGet_other _ _ _ k hk⟩

/-- Witness for C10: with the guideline flag unset and a model response that
itself carries a `"headers"` entry, the returned update holds the default
label set under `"headers"` and passes the other entry through. -/
theorem writer_run_update_witness :
    (pyGet (writer_run true true ⟨Val.vnone, false, false⟩
        ⟨[("headers", Val.vstr "model"), ("introduction", Val.vstr "intro")],
          Val.vnone⟩).2 "headers" =
      some (if false then Val.vnone else Val.vdict (get_headers Val.vnone))) ∧
    ("introduction" ≠ "headers" ∧
      pyGet (writer_run true true ⟨Val.vnone, false, false⟩
          ⟨[("headers", Val.vstr "model"), ("introduction", Val.vstr "intro")],
            Val.vnone⟩).2 "introduction" =
        pyGet [("headers", Val.vstr "model"),
          ("introduction", Val.vstr "intro")] "introduction") :=
  ⟨(writer_run_update true true ⟨Val.vnone, false, false⟩
      ⟨[("headers", Val.vstr "model"), ("introduction", Val.vstr "intro")],
        Val.vnone⟩).1,
    by decide,
    (writer_run_update true true ⟨Val.vnone, false, false⟩
      ⟨[("headers", Val.vstr "model"), ("introduction", Val.vstr "intro")],
        Val.vnone⟩).2 "introduction" (by decide)⟩

/-! ## The report server (backend/server/server.py)

`generate_report` derives the research identifier from the submission time
and the task text, then either schedules the pipeline as a detached
background task and acknowledges at once, or awaits the pipeline and returns
its response.  `read_report` serves a previously exported document or a
not-found message. -/

/-- The character of one decimal digit. -/
def digitChar (d : Nat) : Char := Char.ofNat (48 + d)

/-- Decimal rendering of a natural number, as the Python f-string renders
`int(time.time())`. -/
def natChars (n : Nat) : List Char :=
  if n < 10 then [digitChar n]
  else natChars (n / 10) ++ [digitChar (n % 10)]
termination_by n
decreasing_by
  exact Nat.div_lt_self (by omega) (by omega)

def natStr (n : Nat) : String := String.mk (natChars n)

/-- Value of a digit string, used to show the rendering is injective. -/
def charsVal (l : List Char) : Nat :=
  l.foldl (fun a c => 10 * a + (c.toNat - 48)) 0

theorem digitChar_toNat (d : Nat) (hd : d < 10) :
    (digitChar d).toNat = 48 + d := by
  interval_cases d <;> decide

theorem digitChar_isDigit (d : Nat) (hd : d < 10) :
    (digitChar d).isDigit = true := by
  interval_cases d <;> decide

theorem charsVal_append_digit (l : List Char) (c : Char) :
    charsVal (l ++ [c]) = 10 * charsVal l + (c.toNat - 48) := by
  unfold charsVal
  rw [List.foldl_append]
  rfl

theorem charsVal_natChars (n : Nat) : charsVal (natChars n) = n := by
  induction n using Nat.strong_induction_on with
  | _ n ih =>
    by_cases h : n < 10
    · rw [natChars, if_pos h]
      unfold charsVal
      simp only [List.foldl_cons, List.foldl_nil]
      rw [digitChar_toNat n h]
      omega
    · rw [natChars, if_neg h]
      rw [charsVal_append_digit]
      rw [ih (n / 10) (Nat.div_lt_self (by omega) (by omega))]
      rw [digitChar_toNat (n % 10) (Nat.mod_lt _ (by omega))]
      omega

theorem natChars_inj {m n : Nat} (h : natChars m = natChars n) : m = n := by
  have := congrArg charsVal h
  rwa [charsVal_natChars, charsVal_natChars] at this

theorem natChars_isDigit (n : Nat) : ∀ c ∈ natChars n, c.isDigit = true := by
  induction n using Nat.strong_induction_on with
  | _ n ih =>
    by_cases h : n < 10
    · rw [natChars, if_pos h]
      intro c hc
      rcases List.mem_singleton.mp hc with rfl
      exact digitChar_isDigit n h
    · rw [natChars, if_neg h]
      intro c hc
      rcases List.mem_append.mp hc with hc | hc
      · exact ih (n / 10) (Nat.div_lt_self (by omega) (by omega)) c hc
      · rcases List.mem_singleton.mp hc with rfl
        exact digitChar_isDigit (n % 10) (Nat.mod_lt _ (by omega))

/-- A character kept by the sanitizer: alphanumeric, underscore or hyphen. -/
def safeChar (c : Char) : Bool := c.isAlphanum || c = '_' || c = '-'

/-- Modelled from the spec: `sanitize_filename` lives in
backend/server/server_utils.py, which is not among the given source files.
The specification describes it as stripping characters unsafe for use as a
storage key (for example slashes and quotes) without altering alphanumeric
content, so the model keeps alphanumeric characters plus underscore and
hyphen and strips every other character. -/
def sanitize_filename (filename : String) : String :=
  String.mk (filename.data.filter safeChar)

/-- The identifier computed by `generate_report`:
`sanitize_filename(f"task_{int(time.time())}_{task}")`. -/
def research_id (now : Nat) (task : String) : String :=
  sanitize_filename ("task_" ++ natStr now ++ "_" ++ task)

theorem safeChar_of_isDigit (c : Char) (h : c.isDigit = true) :
    safeChar c = true := by
  simp [safeChar, Char.isAlphanum, h]

theorem research_id_data (now : Nat) (task : String) :
    (research_id now task).data =
      "task_".data ++ natChars now ++ '_' :: task.data.filter safeChar := by
  unfold research_id sanitize_filename natStr
  show ("task_" ++ String.mk (natChars now) ++ "_" ++ task).data.filter safeChar
    = _
  simp only [String.data_append]
  rw [List.filter_append, List.filter_append, List.filter_append]
  have h1 : "task_".data.filter safeChar = "task_".data := by decide
  have h2 : (String.mk (natChars now)).data.filter safeChar =
      natChars now := by
    show (natChars now).filter safeChar = natChars now
    apply List.filter_eq_self.mpr
    intro c hc
    exact safeChar_of_isDigit c (natChars_isDigit now c hc)
  have h3 : "_".data.filter safeChar = ['_'] := by decide
  rw [h1, h2, h3]
  simp

/-- Splitting a concatenation at a separator that cannot occur in the first
parts: digit strings followed by an underscore determine both halves. -/
theorem digits_sep_split :
    ∀ (a1 : List Char) (a2 b1 b2 : List Char),
      (∀ c ∈ a1, c.isDigit = true) → (∀ c ∈ a2, c.isDigit = true) →
      a1 ++ '_' :: b1 = a2 ++ '_' :: b2 → a1 = a2 ∧ b1 = b2 := by
  intro a1
  induction a1 with
  | nil =>
    intro a2 b1 b2 _ hd2 h
    cases a2 with
    | nil =>
      simp only [List.nil_append] at h
      exact ⟨rfl, (List.cons.injEq .. ▸ h).2⟩
    | cons c a2' =>
      simp only [List.nil_append, List.cons_append] at h
      have hc : c = '_' := ((List.cons.injEq .. ▸ h).1).symm
      have := hd2 c (List.mem_cons_self c a2')
      rw [hc] at this
      cases this
  | cons c a1' ih =>
    intro a2 b1 b2 hd1 hd2 h
    cases a2 with
    | nil =>
      simp only [List.nil_append, List.cons_append] at h
      have hc : c = '_' := (List.cons.injEq .. ▸ h).1
      have := hd1 c (List.mem_cons_self c a1')
      rw [hc] at this
      cases this
    | cons d a2' =>
      simp only [List.cons_append] at h
      have hcd : c = d := (List.cons.injEq .. ▸ h).1
      have htail := (List.cons.injEq .. ▸ h).2
      obtain ⟨h1, h2⟩ := ih a2' b1 b2
        (fun x hx => hd1 x (List.mem_cons_of_mem c hx))
        (fun x hx => hd2 x (List.mem_cons_of_mem d hx)) htail
      exact ⟨by rw [hcd, h1], h2⟩

/-- C7 counterexample: at the same submission second, the task texts `ab`
and `a/b` differ but sanitize to the same string, so the two requests
receive the same identifier. -/
theorem research_id_collision_counterexample :
    research_id 5 "ab" = research_id 5 "a/b" ∧ "ab" ≠ "a/b" := by
  constructor
  · have h5 : natChars 5 = [digitChar 5] := by rw [natChars]; simp
    unfold research_id sanitize_filename natStr
    rw [h5]
    decide
  · decide

/-- C7 amended: the identifier is a deterministic function of the submission
time and the sanitized task text; it is injective in the pair (time,
sanitized task), so identical tasks at different timestamps never collide
and two requests collide only when the timestamps coincide and the task
texts sanitize to the same string; the sanitizer output carries no slash or
quote and leaves the alphanumeric content unchanged. -/
theorem research_id_spec :
    (∀ (now : Nat) (task : String), research_id now task = research_id now task) ∧
    (∀ (t1 t2 : Nat) (k1 k2 : String),
      research_id t1 k1 = research_id t2 k2 →
      t1 = t2 ∧ sanitize_filename k1 = sanitize_filename k2) ∧
    (∀ (t1 t2 : Nat) (k : String), t1 ≠ t2 →
      research_id t1 k ≠ research_id t2 k) ∧
    (∀ s : String,
      ('/' ∉ (sanitize_filename s).data ∧
        ('"' : Char) ∉ (sanitize_filename s).data ∧
        Char.ofNat 39 ∉ (sanitize_filename s).data) ∧
      (sanitize_filename s).data.filter (fun c => c.isAlphanum) =
        s.data.filter (fun c => c.isAlphanum)) := by
  have hinj : ∀ (t1 t2 : Nat) (k1 k2 : String),
      research_id t1 k1 = research_id t2 k2 →
      t1 = t2 ∧ sanitize_filename k1 = sanitize_filename k2 := by
    intro t1 t2 k1 k2 h
    have hd := congrArg String.data h
    rw [research_id_data, research_id_data, List.append_assoc,
      List.append_assoc] at hd
    have hd' := List.append_cancel_left hd
    obtain ⟨ha, hb⟩ := digits_sep_split (natChars t1) (natChars t2)
      (k1.data.filter safeChar) (k2.data.filter safeChar)
      (natChars_isDigit t1) (natChars_isDigit t2) hd'
    refine ⟨natChars_inj ha, ?_⟩
    unfold sanitize_filename
    rw [hb]
  refine ⟨fun _ _ => rfl, hinj, ?_, ?_⟩
  · intro t1 t2 k hne h
    exact hne (hinj t1 t2 k k h).1
  · intro s
    constructor
    · refine ⟨?_, ?_, ?_⟩ <;>
        · intro hmem
          have := List.of_mem_filter hmem
          cases this
    · unfold sanitize_filename
      show (s.data.filter safeChar).filter (fun c => c.isAlphanum) = _
      rw [List.filter_filter]
      congr 1
      funext c
      cases hc : c.isAlphanum
      · simp
      · simp [safeChar, hc]

/-- Witness for C7 (amended): the injectivity applied at one identifier, and
distinct timestamps with the same task at concrete values. -/
theorem research_id_spec_witness :
    (3 = 3 ∧ sanitize_filename "x" = sanitize_filename "x") ∧
    research_id 1 "x" ≠ research_id 2 "x" :=
  ⟨research_id_spec.2.1 3 3 "x" "x" rfl,
    research_id_spec.2.2.1 1 2 "x" (by decide)⟩

/-- The fields of the report request that `generate_report` branches on:
the task text and the `generate_in_background` flag (the remaining fields
are consumed by the pipeline itself). -/
structure ResearchRequest where
  task : String
  generate_in_background : Bool

/-- Outcome of the report-submission endpoint: the acknowledgement returned
for a background run, or the full response of the awaited pipeline run. -/
inductive GenerateResponse (β : Type) where
  | ack (message : String) (research_id : String)
  | bundle (b : β)

/-- `generate_report`: compute the identifier, then either schedule
`write_report` as a detached background task and acknowledge at once, or
await it and return its response.  `write_report` runs the external agent
pipeline and document export, abstracted by the `pipeline` argument; the
second component of the result lists the detached tasks scheduled on
`background_tasks`. -/
def generate_report {β : Type} (pipeline : ResearchRequest → String → β)
    (req : ResearchRequest) (now : Nat) :
    GenerateResponse β × List (ResearchRequest × String) :=
  let rid := research_id now req.task
  if req.generate_in_background then
    (.ack "Your report is being generated in the background. Please check back later."
      rid, [(req, rid)])
  else
    (.bundle (pipeline req rid), [])

/-- C6: with the background flag set, submission returns at once an
acknowledgement carrying the identifier — a response independent of the
pipeline, which is only scheduled as a detached task — and with the flag
unset it awaits the pipeline and returns the full response, scheduling
nothing. -/
theorem generate_report_spec {β : Type}
    (pipeline : ResearchRequest → String → β)
    (req : ResearchRequest) (now : Nat) :
    (req.generate_in_background = true →
      generate_report pipeline req now =
        (.ack "Your report is being generated in the background. Please check back later."
          (research_id now req.task), [(req, research_id now req.task)]) ∧
      ∀ pipeline' : ResearchRequest → String → β,
        (generate_report pipeline' req now).1 =
          (generate_report pipeline req now).1) ∧
    (req.generate_in_background = false →
      generate_report pipeline req now =
        (.bundle (pipeline req (research_id now req.task)), [])) := by
  obtain ⟨task, bg⟩ := req
  cases bg
  · refine ⟨fun h => (nomatch h), fun _ => ?_⟩
    simp [generate_report]
  · refine ⟨fun _ => ⟨?_, fun pipeline' => ?_⟩, fun h => (nomatch h)⟩
    · simp [generate_report]
    · simp [generate_report]

/-- Witness for C6 in both modes at concrete requests. -/
theorem generate_report_spec_witness :
    (generate_report (fun _ rid => rid) ⟨"t", true⟩ 7 =
      (.ack "Your report is being generated in the background. Please check back later."
        (research_id 7 "t"), [(⟨"t", true⟩, research_id 7 "t")]) ∧
      ∀ pipeline' : ResearchRequest → String → String,
        (generate_report pipeline' ⟨"t", true⟩ 7).1 =
          (generate_report (fun _ rid => rid) ⟨"t", true⟩ 7).1) ∧
    generate_report (fun _ rid => rid) ⟨"t", false⟩ 7 =
      (.bundle (research_id 7 "t"), []) :=
  ⟨(generate_report_spec (fun _ rid => rid) ⟨"t", true⟩ 7).1 rfl,
    (generate_report_spec (fun _ rid => rid) ⟨"t", false⟩ 7).2 rfl⟩

/-- Outcome of report retrieval: the served file or the not-found message. -/
inductive ReadReportResult where
  | fileResponse (path : String)
  | message (msg : String)
deriving DecidableEq

/-- `read_report`: look for `outputs/<research_id>.docx` on disk (the
`files` argument stands for the set of existing paths) and serve it, else
report the document as missing; both outcomes are ordinary return values. -/
def read_report (files : List String) (research_id : String) :
    ReadReportResult :=
  let docx_path := "outputs/" ++ research_id ++ ".docx"
  if docx_path ∈ files then .fileResponse docx_path
  else .message "Report not found."

/-- C9: retrieval serves the persisted export when it exists and returns the
not-found message as a normal value when it does not. -/
theorem read_report_spec (files : List String) (rid : String) :
    (("outputs/" ++ rid ++ ".docx") ∈ files →
      read_report files rid = .fileResponse ("outputs/" ++ rid ++ ".docx")) ∧
    (("outputs/" ++ rid ++ ".docx") ∉ files →
      read_report files rid = .message "Report not found.") := by
  constructor
  · intro h
    unfold read_report
    rw [if_pos h]
  · intro h
    unfold read_report
    rw [if_neg h]

/-- Witness for C9 in both outcomes at concrete inputs. -/
theorem read_report_spec_witness :
    read_report ["outputs/r1.docx"] "r1" = .fileResponse "outputs/r1.docx" ∧
    read_report ["outputs/r1.docx"] "r2" = .message "Report not found." :=
  ⟨(read_report_spec ["outputs/r1.docx"] "r1").1 (by decide),
    (read_report_spec ["outputs/r1.docx"] "r2").2 (by decide)⟩

end GptResearcher
